import Mathlib

/-!
Verification development for the timetable client's reconciliation and
synchronization core (`pages/index.js` and `frontend/pages/index.js`; the two
entry points contain byte-identical copies of `normalize`, `findFaculty` and
`fetchWithRetry`, so a single embedding covers both).

Strings are embedded as `String` / `List Char`; the JS regexes of `normalize`
are embedded step by step (honorific strip with the regex's alternation and
backtracking order, non-letter replacement, whitespace collapsing, trim).
JS number division in the token-acceptance rule is embedded as exact rational
division: at the token counts the development evaluates (2/3, 3/4 against the
literal 0.7) the IEEE-double comparison of the source and the rational
comparison agree.
-/

namespace Timetable

/-- The characters matched by the JS regex class `\s` (ASCII range). -/
def isWs (c : Char) : Bool :=
  c == ' ' || c == '\t' || c == '\n' || c == '\r' || c == '\x0b' || c == '\x0c'

/-- Membership in the JS regex class `[a-z]`. -/
def isLowerAlpha (c : Char) : Bool :=
  decide (97 ≤ c.toNat ∧ c.toNat ≤ 122)

/-- `String.prototype.toLowerCase`, character-wise, on the ASCII range. -/
def jsToLower (c : Char) : Char :=
  if 65 ≤ c.toNat ∧ c.toNat ≤ 90 then Char.ofNat (c.toNat + 32) else c

/-- `a.startsWith(b)` on character lists: first argument is the pattern. -/
def listStarts : List Char → List Char → Bool
  | [], _ => true
  | _ :: _, [] => false
  | a :: as, b :: bs => a == b && listStarts as bs

/-- `a.includes(b)`: the pattern `p` occurs contiguously in the text. -/
def listContains (p : List Char) : List Char → Bool
  | [] => p.isEmpty
  | c :: rest => listStarts p (c :: rest) || listContains p rest

/-- The tail of the honorific regex `\.?(\s+|$)` after the alternation token
    matched, with the regex's backtracking: an optional period, then either a
    (greedy) whitespace run or the end of the string.  Returns the remainder
    of the string past the whole match, `none` when the tail cannot match. -/
def afterTok : List Char → Option (List Char)
  | [] => some []
  | c :: rest =>
    if c == '.' then
      match rest with
      | [] => some []
      | d :: _ => if isWs d then some (rest.dropWhile isWs) else none
    else if isWs c then some (rest.dropWhile isWs) else none

/-- The honorific tokens of `/^(dr|mr|ms|mrs|syed|s)\.?(\s+|$)/`, in the
    regex's alternation order. -/
def honorifics : List (List Char) :=
  [['d','r'], ['m','r'], ['m','s'], ['m','r','s'], ['s','y','e','d'], ['s']]

/-- `.replace(/^(dr|mr|ms|mrs|syed|s)\.?(\s+|$)/, '')`: the first alternation
    token whose full pattern matches at the start is removed together with the
    period/whitespace tail; when none matches the string is unchanged. -/
def stripHonorific (cs : List Char) : List Char :=
  match honorifics.findSome?
      (fun t => if listStarts t cs then afterTok (cs.drop t.length) else none) with
  | some rest => rest
  | none => cs

/-- `.replace(/[^a-z\s]/g, ' ')`: every character that is neither a lowercase
    letter nor whitespace becomes a space. -/
def replNonAlpha (c : Char) : Char :=
  if isLowerAlpha c || isWs c then c else ' '

/-- Worker for `.replace(/\s+/g, ' ')`: the flag records whether the previous
    character belonged to a whitespace run already replaced. -/
def collapseAux : Bool → List Char → List Char
  | _, [] => []
  | prevWs, c :: rest =>
    if isWs c then
      if prevWs then collapseAux true rest else ' ' :: collapseAux true rest
    else c :: collapseAux false rest

/-- `.replace(/\s+/g, ' ')`: each maximal whitespace run becomes one space. -/
def collapseWs (cs : List Char) : List Char := collapseAux false cs

/-- Removal of a trailing whitespace run (the right half of `.trim()`). -/
def trimRightL : List Char → List Char
  | [] => []
  | c :: t =>
    match trimRightL t with
    | [] => if isWs c then [] else [c]
    | d :: t2 => c :: d :: t2

/-- `.trim()`: leading and trailing whitespace removed. -/
def trimL (cs : List Char) : List Char := trimRightL (cs.dropWhile isWs)

/-- The `normalize` helper of `findFaculty` (`pages/index.js` lines 73-77):
    lowercase, strip one leading honorific, replace non-letters by spaces,
    collapse whitespace runs, trim. -/
def normalizeL (cs : List Char) : List Char :=
  trimL (collapseWs ((stripHonorific (cs.map jsToLower)).map replNonAlpha))

/-- `normalize` on `String`s. -/
def normalizeS (s : String) : String := ⟨normalizeL s.data⟩

/-- A character a normalized name can contain: a lowercase letter or the
    plain space. -/
def goodChar (c : Char) : Bool := isLowerAlpha c || c == ' '

/-- No two adjacent whitespace characters. -/
def noAdjWs : List Char → Bool
  | [] => true
  | [_] => true
  | a :: b :: t => !(isWs a && isWs b) && noAdjWs (b :: t)

/-- The first character, when present, is not whitespace. -/
def headNotWs : List Char → Prop
  | [] => True
  | c :: _ => isWs c = false

/-- The last character, when present, is not whitespace. -/
def lastNotWs : List Char → Prop
  | [] => True
  | [c] => isWs c = false
  | _ :: c :: t => lastNotWs (c :: t)

/-- `lower.split(/\s+/).filter(p => p.length >= 1)`: the maximal non-whitespace
    runs of the string.  (On the normalized strings it is applied to, which
    are trimmed and single-spaced, `split(/\s+/)` produces no empty pieces
    except on the empty string, so the filtered split is exactly the list of
    maximal non-whitespace runs.) -/
def splitTokensAux : List Char → List Char → List (List Char)
  | [], acc => if acc.isEmpty then [] else [acc.reverse]
  | c :: rest, acc =>
    if isWs c then
      if acc.isEmpty then splitTokensAux rest []
      else acc.reverse :: splitTokensAux rest []
    else splitTokensAux rest (c :: acc)

def splitTokens (cs : List Char) : List (List Char) := splitTokensAux cs []

/-- A directory faculty record; `findFaculty`'s placeholder result reuses the
    same shape with `isPlaceholder` set, as the JS object literal does. -/
structure FacultyRecord where
  name : String
  designation : String
  department : String
  email : String
  phone : String
  photo_url : String
  isPlaceholder : Bool
deriving DecidableEq

/-- The `metadata` state object: `{ teachers: [], venues: [], room_aliases: {} }`. -/
structure Metadata where
  teachers : List String
  venues : List String
  room_aliases : List (String × String)
deriving DecidableEq

/-- The per-query-token match test of the token pass: a single-letter token
    matches when some record token starts with it, a longer token when some
    record token equals it or the whole normalized record name contains it. -/
def isPartMatch (fn : List Char) (fnParts : List (List Char)) (p : List Char) : Bool :=
  if p.length = 1 then fnParts.any (fun fnp => listStarts p fnp)
  else fnParts.any (fun fnp => fnp == p) || listContains p fn

/-- `matchedCount / nameParts.length >= 0.7`, embedded by cross-multiplying
    the exact fraction: for a positive denominator this equals the rational
    comparison `7/10 ≤ matched/nparts` (theorem `fracGe_eq_rat` below), which
    at every token count this development evaluates agrees with the source's
    IEEE-double comparison. -/
def fracGe (matched nparts : Nat) : Bool :=
  decide (7 * nparts ≤ 10 * matched)

/-- The acceptance rule of the token pass (`pages/index.js` lines 102-105):
    all query tokens matched, or at least 2 matched and the matched fraction
    is at least 0.7. -/
def acceptRule (matched nparts : Nat) : Bool :=
  matched == nparts || (decide (2 ≤ matched) && fracGe matched nparts)

/-- The `matchedCount` of the token pass: how many query tokens match the
    record (the `forEach` counter of lines 95-100). -/
def matchedTokens (lower : List Char) (f : FacultyRecord) : Nat :=
  let fn := normalizeL f.name.data
  ((splitTokens lower).filter (isPartMatch fn (splitTokens fn))).length

/-- The token-pass predicate applied to one directory record. -/
def tokenAccept (lower : List Char) (f : FacultyRecord) : Bool :=
  acceptRule (matchedTokens lower f) (splitTokens lower).length

/-- Pass 1 of `findFaculty`: first record whose normalized name equals the
    normalized query. -/
def exactPass (lower : List Char) (faculty : List FacultyRecord) : Option FacultyRecord :=
  faculty.find? (fun f => normalizeL f.name.data == lower)

/-- Pass 2: first record accepted by the token rule (`Array.prototype.find`
    scans in directory order). -/
def tokenPass (lower : List Char) (faculty : List FacultyRecord) : Option FacultyRecord :=
  faculty.find? (tokenAccept lower)

/-- Pass 3: only for normalized queries longer than 4 characters, first record
    whose normalized name contains the whole query as a substring. -/
def substringPass (lower : List Char) (faculty : List FacultyRecord) : Option FacultyRecord :=
  if 4 < lower.length then
    faculty.find? (fun f => listContains lower (normalizeL f.name.data))
  else none

/-- Pass 4: the synthesized placeholder object, with the raw input as display
    name and the designation depending on the known-teachers metadata set. -/
def placeholderFor (raw : String) (lower : List Char) (meta : Metadata) : FacultyRecord :=
  { name := raw
    designation :=
      if meta.teachers.any (fun t => normalizeL t.data == lower) then "Faculty"
      else "Instructor"
    department := "University Faculty"
    email := ""
    phone := ""
    photo_url := ""
    isPlaceholder := true }

/-- `findFaculty(teacherName)` over an explicit directory and metadata
    (`pages/index.js` lines 69-126).  `none` embeds the JS `null` returns:
    a falsy input name, or a query that normalizes to the empty string. -/
def findFaculty (teacherName : String) (faculty : List FacultyRecord)
    (meta : Metadata) : Option FacultyRecord :=
  if teacherName = "" then none
  else
    let lower := normalizeL teacherName.data
    if lower = [] then none
    else
      match exactPass lower faculty with
      | some m => some m
      | none =>
        match tokenPass lower faculty with
        | some m => some m
        | none =>
          match substringPass lower faculty with
          | some m => some m
          | none => some (placeholderFor teacherName lower meta)

/-! ### Resilient Loader (`fetchWithRetry`, `pages/index.js` lines 33-45)

One attempt is a suspension point with an external outcome, embedded as a
function from the attempt index to `Except`: `Except.error` covers both a
transport failure and the `Status ...` error thrown on a non-ok response
(the JS `catch` does not distinguish them).  The returned list records the
backoff waits inserted before each retry, in order; the attempt count of a
call is therefore the length of that list plus one. -/

/-- `fetchWithRetry(url, options, retries, backoff)`: on failure, when retries
    remain, wait `backoff`, then recurse with `retries - 1` and
    `backoff * 1.5`; otherwise rethrow the last failure. -/
def fetchWithRetry {α : Type} (attempt : Nat → Except String α) :
    Nat → Nat → ℚ → Except String α × List ℚ
  | k, 0, _ =>
    match attempt k with
    | .ok p => (.ok p, [])
    | .error e => (.error e, [])
  | k, r + 1, backoff =>
    match attempt k with
    | .ok p => (.ok p, [])
    | .error _ =>
      let res := fetchWithRetry attempt (k + 1) r (backoff * (3 / 2))
      (res.1, backoff :: res.2)

/-! ### Result Cache (mount-time cache load, `pages/index.js` lines 24-31)

`localStorage` holds one slot (`timetable_cache`), embedded as an
`Option String`.  `JSON.parse` is a host primitive, embedded as an explicit
parse parameter returning `Option`; `none` covers a thrown parse error. -/

structure ClassEntry where
  day : String
  start_time : String
  end_time : String
  subject : String
  room : String
  teacher : String
deriving DecidableEq

structure ExamEntry where
  date : String
  start_time : String
  end_time : String
  subject : String
  room : String
deriving DecidableEq

/-- The schedule payload cached by the client and submitted to `/sync`. -/
structure ScheduleSnapshot where
  roll_number : Option String
  classes : List ClassEntry
  exams : List ExamEntry
  exam_type : String
deriving DecidableEq

/-- The client state the cache-load effect touches: the persisted slot, the
    `schedule` and `rollNumber` React state, and the user-visible `error`. -/
structure ClientState where
  slot : Option String
  schedule : Option ScheduleSnapshot
  rollNumber : String
  errorMsg : String
deriving DecidableEq

/-- The mount-time cache load: a truthy slot is parsed; on success the
    schedule (and, when truthy, the roll number) is published; a parse
    failure removes the slot and touches nothing else. -/
def cacheLoad (parseJson : String → Option ScheduleSnapshot)
    (st : ClientState) : ClientState :=
  match st.slot with
  | none => st
  | some text =>
    if text = "" then st
    else
      match parseJson text with
      | some d =>
        let st1 := { st with schedule := some d }
        match d.roll_number with
        | some r => if r = "" then st1 else { st1 with rollNumber := r }
        | none => st1
      | none => { st with slot := none }

/-! ### Sync Orchestrator (`handleSync` / `performSync`,
`frontend/pages/index.js` lines 201-245)

The session consumes external outcomes (two `/auth/url` fetches, the window
open, the window-closure observation, the `/sync` fetch), embedded as an
explicit world record.  The result carries the final `syncStatus` string and
the ordered list of externally visible events of the session. -/

/-- The parsed `/auth/url` body; absent JSON fields are embedded as `""`
    (both are falsy in the JS truthiness tests applied to them). -/
structure AuthData where
  authenticated : Bool
  url : String
  error : String
deriving DecidableEq

/-- The parsed `/sync` error body (`{detail}`). -/
structure SyncBody where
  detail : String
deriving DecidableEq

deriving instance DecidableEq for Except

/-- One `fetch` outcome: a transport failure, or a response with an HTTP
    status and the outcome of `res.json()` (`Except.error` is a thrown parse
    error carrying its message). -/
inductive FetchOutcome (α : Type) where
  | netFail (msg : String)
  | resp (status : Nat) (body : Except String α)
deriving DecidableEq

/-- `res.ok`: status in the 2xx range. -/
def statusOk (s : Nat) : Bool := decide (200 ≤ s ∧ s ≤ 299)

/-- The externally visible events of one sync session, in order. -/
inductive Ev where
  | callAuth
  | openWin
  | callSync (payload : ScheduleSnapshot)
deriving DecidableEq

/-- The external outcomes one sync session can consume. -/
structure SyncWorld where
  auth1 : FetchOutcome AuthData
  openOk : Bool
  windowCloses : Bool
  auth2 : FetchOutcome AuthData
  syncRes : FetchOutcome SyncBody
deriving DecidableEq

/-- The terminal shape of one sync session.  `crashed` embeds an exception
    escaping the poll-timer callback (which has no handler): the timer is
    already cleared and no status is published. -/
inductive SessionResult where
  | noop
  | finished (finalStatus : String) (events : List Ev)
  | pollsForever (events : List Ev)
  | crashed (events : List Ev)
deriving DecidableEq

/-- The poll period of the authorization-window timer (`setInterval`, ms). -/
def pollIntervalMs : Nat := 1000

/-- `performSync`: submit the schedule; 401 is checked before the body is
    parsed; otherwise the parsed body decides between `success` and the
    server-provided detail. -/
def performSyncStatus (r : FetchOutcome SyncBody) : String :=
  match r with
  | .netFail msg => "error:" ++ msg
  | .resp status body =>
    if status = 401 then "auth_needed"
    else
      match body with
      | .error msg => "error:" ++ msg
      | .ok data => if statusOk status then "success" else "error:" ++ data.detail

/-- `handleSync`: one full sync session over the world of external
    outcomes. -/
def handleSync (schedule : Option ScheduleSnapshot) (w : SyncWorld) : SessionResult :=
  match schedule with
  | none => .noop
  | some sched =>
    match w.auth1 with
    | .netFail msg => .finished ("error:" ++ msg) [.callAuth]
    | .resp status body =>
      if !statusOk status then
        .finished "error:Failed to check auth status" [.callAuth]
      else
        match body with
        | .error msg => .finished ("error:" ++ msg) [.callAuth]
        | .ok a =>
          if a.error != "" then .finished ("error:" ++ a.error) [.callAuth]
          else if !a.authenticated && a.url != "" then
            if !w.openOk then .finished "popup_blocked" [.callAuth, .openWin]
            else if !w.windowCloses then .pollsForever [.callAuth, .openWin]
            else
              match w.auth2 with
              | .netFail _ => .crashed [.callAuth, .openWin, .callAuth]
              | .resp _ (.error _) => .crashed [.callAuth, .openWin, .callAuth]
              | .resp _ (.ok a2) =>
                if a2.authenticated then
                  .finished (performSyncStatus w.syncRes)
                    [.callAuth, .openWin, .callAuth, .callSync sched]
                else .finished "auth_failed" [.callAuth, .openWin, .callAuth]
          else .finished (performSyncStatus w.syncRes) [.callAuth, .callSync sched]

/-! ## General helper lemmas -/

/-- `List.find?` returns the first satisfying element: from a satisfying
    element at index `i`, the result is the element at some index `k ≤ i`. -/
theorem find?_first {α : Type} (p : α → Bool) :
    ∀ (l : List α) (i : Nat) (hi : i < l.length), p (l.get ⟨i, hi⟩) = true →
      ∃ k, ∃ hk : k < l.length, k ≤ i ∧
        l.find? p = some (l.get ⟨k, hk⟩) ∧ p (l.get ⟨k, hk⟩) = true := by
  intro l
  induction l with
  | nil => intro i hi; exact absurd hi (Nat.not_lt_zero i)
  | cons a t ih =>
    intro i hi hpi
    cases hpa : p a with
    | true =>
      refine ⟨0, Nat.succ_pos t.length, Nat.zero_le i, ?_, ?_⟩
      · simpa using List.find?_cons_of_pos t hpa
      · simpa using hpa
    | false =>
      match i with
      | 0 =>
        rw [show (a :: t).get ⟨0, hi⟩ = a from rfl] at hpi
        rw [hpa] at hpi
        cases hpi
      | i' + 1 =>
        have hpi' : p (t.get ⟨i', Nat.lt_of_succ_lt_succ hi⟩) = true := hpi
        obtain ⟨k, hk, hki, hfind, hpk⟩ := ih i' (Nat.lt_of_succ_lt_succ hi) hpi'
        refine ⟨k + 1, Nat.succ_lt_succ hk, Nat.succ_le_succ hki, ?_, ?_⟩
        · rw [List.find?_cons_of_neg t (by simp [hpa])]
          simpa using hfind
        · simpa using hpk

theorem substringPass_mem {lower : List Char} {fac : List FacultyRecord}
    {m : FacultyRecord} (h : substringPass lower fac = some m) : m ∈ fac := by
  unfold substringPass at h
  split at h
  · exact List.mem_of_find?_eq_some h
  · cases h

/-- The cross-multiplied fraction test is the exact rational comparison
    written in the source, whenever the query has at least one token. -/
theorem fracGe_eq_rat (m n : Nat) (hn : 0 < n) :
    fracGe m n = decide ((7 : ℚ) / 10 ≤ (m : ℚ) / (n : ℚ)) := by
  have hiff : (7 * n ≤ 10 * m) ↔ ((7 : ℚ) / 10 ≤ (m : ℚ) / (n : ℚ)) := by
    rw [div_le_div_iff₀ (by norm_num) (by exact_mod_cast hn)]
    constructor
    · intro h
      have hq : ((7 * n : ℕ) : ℚ) ≤ ((10 * m : ℕ) : ℚ) := by exact_mod_cast h
      push_cast at hq
      linarith
    · intro h
      have hq : ((7 * n : ℕ) : ℚ) ≤ ((10 * m : ℕ) : ℚ) := by push_cast; linarith
      exact_mod_cast hq
  unfold fracGe
  exact decide_eq_decide.mpr hiff

theorem orE {a b : Bool} (h : (a || b) = true) : a = true ∨ b = true :=
  Bool.or_eq_true a b ▸ h

theorem andE {a b : Bool} (h : (a && b) = true) : a = true ∧ b = true :=
  Bool.and_eq_true a b ▸ h

/-! ### Shape of normalized names

The lemmas below establish that every output of `normalizeL` consists of
lowercase letters and single interior spaces, with no leading or trailing
whitespace — and that each stage of the pipeline other than the honorific
strip is the identity on such strings. -/

theorem good_toNat {c : Char} (h : goodChar c = true) :
    (97 ≤ c.toNat ∧ c.toNat ≤ 122) ∨ c = ' ' := by
  unfold goodChar isLowerAlpha at h
  rcases orE h with h1 | h2
  · exact Or.inl (of_decide_eq_true h1)
  · exact Or.inr (eq_of_beq h2)

theorem jsToLower_good {c : Char} (h : goodChar c = true) : jsToLower c = c := by
  rcases good_toNat h with ⟨h1, h2⟩ | hsp
  · have hno : ¬(65 ≤ c.toNat ∧ c.toNat ≤ 90) := by omega
    simp [jsToLower, hno]
  · subst hsp; decide

theorem repl_good {c : Char} (h : goodChar c = true) : replNonAlpha c = c := by
  rcases orE h with h1 | h2
  · simp [replNonAlpha, h1]
  · have hsp : c = ' ' := eq_of_beq h2
    subst hsp; decide

theorem ws_toNat {c : Char} (hw : isWs c = true) : c.toNat ≤ 32 := by
  rcases orE hw with hw1 | h
  · rcases orE hw1 with hw2 | h
    · rcases orE hw2 with hw3 | h
      · rcases orE hw3 with hw4 | h
        · rcases orE hw4 with h | h <;> rw [eq_of_beq h] <;> decide
        · rw [eq_of_beq h]; decide
      · rw [eq_of_beq h]; decide
    · rw [eq_of_beq h]; decide
  · rw [eq_of_beq h]; decide

theorem good_ws_space {c : Char} (hg : goodChar c = true) (hw : isWs c = true) :
    c = ' ' := by
  rcases orE hg with h1 | h2
  · exfalso
    have hle := ws_toNat hw
    unfold isLowerAlpha at h1
    have hge := of_decide_eq_true h1
    omega
  · exact eq_of_beq h2

theorem mem_replMap {X : List Char} :
    ∀ c ∈ X.map replNonAlpha, (isLowerAlpha c || isWs c) = true := by
  intro c hc
  rcases List.mem_map.mp hc with ⟨d, _, rfl⟩
  unfold replNonAlpha
  split
  · assumption
  · decide

theorem mem_collapseAux :
    ∀ (b : Bool) (l : List Char), (∀ c ∈ l, (isLowerAlpha c || isWs c) = true) →
      ∀ c ∈ collapseAux b l, goodChar c = true := by
  intro b l
  induction l generalizing b with
  | nil => intro _ c hc; simp [collapseAux] at hc
  | cons a t ih =>
    intro h c hc
    have ht : ∀ x ∈ t, (isLowerAlpha x || isWs x) = true :=
      fun x hx => h x (List.mem_cons_of_mem a hx)
    by_cases ha : isWs a = true
    · cases b with
      | true =>
        simp only [collapseAux, ha, if_true] at hc
        exact ih true ht c hc
      | false =>
        simp only [collapseAux, ha, if_true] at hc
        rcases List.mem_cons.mp hc with rfl | hc2
        · decide
        · exact ih true ht c hc2
    · have ha' : isWs a = false := by simpa using ha
      simp only [collapseAux, ha', if_false, Bool.false_eq_true] at hc
      obtain heq | hc2 := List.mem_cons.mp hc
      · rw [heq]
        have hga := h a (List.mem_cons_self a t)
        rw [ha'] at hga
        simp only [Bool.or_false] at hga
        unfold goodChar
        simp [hga]
      · exact ih false ht c hc2

theorem headNotWs_collapseAux_true : ∀ l : List Char, headNotWs (collapseAux true l) := by
  intro l
  induction l with
  | nil => trivial
  | cons a t ih =>
    by_cases ha : isWs a = true
    · simpa [collapseAux, ha] using ih
    · have ha' : isWs a = false := by simpa using ha
      simp only [collapseAux, ha', Bool.false_eq_true, if_false]
      exact ha'

theorem noAdj_collapseAux : ∀ (l : List Char) (b : Bool),
    noAdjWs (collapseAux b l) = true := by
  intro l
  induction l with
  | nil => intro b; rfl
  | cons a t ih =>
    intro b
    by_cases ha : isWs a = true
    · cases b with
      | true => simpa [collapseAux, ha] using ih true
      | false =>
        simp only [collapseAux, ha, if_true]
        cases hout : collapseAux true t with
        | nil => rfl
        | cons d t2 =>
          have hd : isWs d = false := by
            have hh := headNotWs_collapseAux_true t
            rw [hout] at hh
            exact hh
          have hrest : noAdjWs (d :: t2) = true := by rw [← hout]; exact ih true
          simp [noAdjWs, hd, hrest]
    · have ha' : isWs a = false := by simpa using ha
      simp only [collapseAux, ha', if_false, Bool.false_eq_true]
      cases hout : collapseAux false t with
      | nil => rfl
      | cons d t2 =>
        have hrest : noAdjWs (d :: t2) = true := by rw [← hout]; exact ih false
        simp [noAdjWs, ha', hrest]

theorem noAdj_tail {a : Char} {l : List Char} (h : noAdjWs (a :: l) = true) :
    noAdjWs l = true := by
  cases l with
  | nil => rfl
  | cons b t => exact (andE h).2

theorem noAdj_dropWhile {l : List Char} (h : noAdjWs l = true) :
    noAdjWs (l.dropWhile isWs) = true := by
  induction l with
  | nil => simpa using h
  | cons a t ih =>
    by_cases ha : isWs a = true
    · simp only [List.dropWhile_cons, ha, if_true]
      exact ih (noAdj_tail h)
    · have ha' : isWs a = false := by simpa using ha
      simpa [List.dropWhile_cons, ha'] using h

theorem headNotWs_dropWhile : ∀ l : List Char, headNotWs (l.dropWhile isWs) := by
  intro l
  induction l with
  | nil => trivial
  | cons a t ih =>
    by_cases ha : isWs a = true
    · simpa [List.dropWhile_cons, ha] using ih
    · have ha' : isWs a = false := by simpa using ha
      rw [List.dropWhile_cons, if_neg (by simp [ha'])]
      exact ha'

theorem mem_of_dropWhile {c : Char} : ∀ {l : List Char}, c ∈ l.dropWhile isWs → c ∈ l := by
  intro l
  induction l with
  | nil => intro h; simpa using h
  | cons a t ih =>
    intro h
    by_cases ha : isWs a = true
    · rw [List.dropWhile_cons, if_pos ha] at h
      exact List.mem_cons_of_mem a (ih h)
    · have ha' : isWs a = false := by simpa using ha
      rwa [List.dropWhile_cons, if_neg (by simp [ha'])] at h

theorem mem_trimRightL {c : Char} : ∀ {l : List Char}, c ∈ trimRightL l → c ∈ l := by
  intro l
  induction l with
  | nil => intro h; simpa [trimRightL] using h
  | cons a t ih =>
    intro h
    simp only [trimRightL] at h
    cases htr : trimRightL t with
    | nil =>
      rw [htr] at h
      by_cases ha : isWs a = true
      · rw [if_pos ha] at h; simp at h
      · rw [if_neg ha] at h
        have heq := List.mem_singleton.mp h
        rw [heq]
        exact List.mem_cons_self a t
    | cons d t2 =>
      rw [htr] at h
      obtain heq | h2 := List.mem_cons.mp h
      · rw [heq]
        exact List.mem_cons_self a t
      · exact List.mem_cons_of_mem a (ih (by rw [htr]; exact h2))

theorem head_trimRightL : ∀ l : List Char,
    trimRightL l = [] ∨ (trimRightL l).head? = l.head? := by
  intro l
  cases l with
  | nil => exact Or.inl rfl
  | cons a t =>
    simp only [trimRightL]
    cases htr : trimRightL t with
    | nil =>
      by_cases ha : isWs a = true
      · rw [if_pos ha]; exact Or.inl rfl
      · rw [if_neg ha]; exact Or.inr rfl
    | cons d t2 => exact Or.inr rfl

theorem headNotWs_trimRightL {l : List Char} (h : headNotWs l) :
    headNotWs (trimRightL l) := by
  cases l with
  | nil => trivial
  | cons a t =>
    simp only [trimRightL]
    cases htr : trimRightL t with
    | nil =>
      by_cases ha : isWs a = true
      · rw [if_pos ha]; trivial
      · rw [if_neg ha]; exact h
    | cons d t2 => exact h

theorem noAdj_trimRightL : ∀ {l : List Char}, noAdjWs l = true →
    noAdjWs (trimRightL l) = true := by
  intro l
  induction l with
  | nil => intro h; exact h
  | cons a t ih =>
    intro h
    simp only [trimRightL]
    cases htr : trimRightL t with
    | nil =>
      by_cases ha : isWs a = true
      · rw [if_pos ha]; rfl
      · rw [if_neg ha]; rfl
    | cons d t2 =>
      have hdt : noAdjWs (d :: t2) = true := htr ▸ ih (noAdj_tail h)
      have hpair : (isWs a && isWs d) = false := by
        rcases head_trimRightL t with hnil | hhead
        · rw [hnil] at htr; cases htr
        · rw [htr] at hhead
          cases t with
          | nil => cases hhead
          | cons e t3 =>
            have hde : d = e := by simpa using hhead
            subst hde
            have hcomp := (andE h).1
            have hor : isWs a = false ∨ isWs d = false := by
              simpa [Bool.and_eq_false_iff] using hcomp
            rcases hor with hf | hf <;> simp [hf]
      simp [noAdjWs, hpair, hdt]

theorem lastNotWs_trimRightL : ∀ l : List Char, lastNotWs (trimRightL l) := by
  intro l
  induction l with
  | nil => trivial
  | cons a t ih =>
    simp only [trimRightL]
    cases htr : trimRightL t with
    | nil =>
      by_cases ha : isWs a = true
      · rw [if_pos ha]; trivial
      · rw [if_neg ha]
        show isWs a = false
        simpa using ha
    | cons d t2 =>
      show lastNotWs (d :: t2)
      rw [← htr]
      exact ih

theorem dropWhile_fixed {l : List Char} (h : headNotWs l) :
    l.dropWhile isWs = l := by
  cases l with
  | nil => rfl
  | cons a t => rw [List.dropWhile_cons, if_neg (by simp [show isWs a = false from h])]

theorem trimRightL_fixed : ∀ l : List Char, lastNotWs l → trimRightL l = l := by
  intro l
  induction l with
  | nil => intro _; rfl
  | cons a t ih =>
    intro h
    cases t with
    | nil =>
      have ha : isWs a = false := h
      simp [trimRightL, ha]
    | cons b t2 =>
      have ht : trimRightL (b :: t2) = b :: t2 := ih h
      simp only [trimRightL] at ht ⊢
      rw [ht]

theorem collapse_fixed : ∀ l : List Char, (∀ c ∈ l, goodChar c = true) →
    noAdjWs l = true →
    collapseAux false l = l ∧ (headNotWs l → collapseAux true l = l) := by
  intro l
  induction l with
  | nil => intro _ _; exact ⟨rfl, fun _ => rfl⟩
  | cons a t ih =>
    intro hg hadj
    have ihs := ih (fun c hc => hg c (List.mem_cons_of_mem a hc)) (noAdj_tail hadj)
    by_cases ha : isWs a = true
    · have haSp : a = ' ' := good_ws_space (hg a (List.mem_cons_self a t)) ha
      have htHead : headNotWs t := by
        cases t with
        | nil => trivial
        | cons b t2 =>
          have hcomp := (andE hadj).1
          have hor : isWs a = false ∨ isWs b = false := by
            simpa [Bool.and_eq_false_iff] using hcomp
          rcases hor with hfa | hfd
          · rw [ha] at hfa
            exact absurd hfa (by decide)
          · exact hfd
      refine ⟨?_, ?_⟩
      · simp only [collapseAux, ha, if_true, Bool.false_eq_true, if_false]
        rw [ihs.2 htHead, haSp]
      · intro hh
        have : isWs a = false := hh
        rw [ha] at this; cases this
    · have ha' : isWs a = false := by simpa using ha
      refine ⟨?_, fun _ => ?_⟩ <;>
        · simp only [collapseAux, ha', if_false, Bool.false_eq_true]
          rw [ihs.1]

theorem normalizeL_good {cs : List Char} : ∀ c ∈ normalizeL cs, goodChar c = true := by
  intro c hc
  unfold normalizeL trimL collapseWs at hc
  exact mem_collapseAux false _ mem_replMap c (mem_of_dropWhile (mem_trimRightL hc))

theorem normalizeL_noAdj (cs : List Char) : noAdjWs (normalizeL cs) = true :=
  noAdj_trimRightL (noAdj_dropWhile (noAdj_collapseAux _ false))

theorem normalizeL_head (cs : List Char) : headNotWs (normalizeL cs) :=
  headNotWs_trimRightL (headNotWs_dropWhile _)

theorem normalizeL_last (cs : List Char) : lastNotWs (normalizeL cs) :=
  lastNotWs_trimRightL _

theorem map_id_of_fix {f : Char → Char} :
    ∀ {l : List Char}, (∀ c ∈ l, f c = c) → l.map f = l := by
  intro l
  induction l with
  | nil => intro _; rfl
  | cons a t ih =>
    intro h
    rw [List.map_cons, h a (List.mem_cons_self a t),
      ih (fun c hc => h c (List.mem_cons_of_mem a hc))]

/-- On a string already in normalized shape, the whole pipeline reduces to
    the honorific strip alone. -/
theorem normalizeL_idem_of_strip (cs : List Char)
    (h : stripHonorific (normalizeL cs) = normalizeL cs) :
    normalizeL (normalizeL cs) = normalizeL cs := by
  have hg : ∀ c ∈ normalizeL cs, goodChar c = true := normalizeL_good
  calc normalizeL (normalizeL cs)
      = trimL (collapseWs ((stripHonorific ((normalizeL cs).map jsToLower)).map
          replNonAlpha)) := rfl
    _ = trimL (collapseWs ((normalizeL cs).map replNonAlpha)) := by
          rw [map_id_of_fix (fun c hc => jsToLower_good (hg c hc)), h]
    _ = trimL (collapseWs (normalizeL cs)) := by
          rw [map_id_of_fix (fun c hc => repl_good (hg c hc))]
    _ = trimL (normalizeL cs) := by
          rw [show collapseWs (normalizeL cs) = normalizeL cs from
            (collapse_fixed _ hg (normalizeL_noAdj cs)).1]
    _ = normalizeL cs := by
          unfold trimL
          rw [dropWhile_fixed (normalizeL_head cs),
            trimRightL_fixed _ (normalizeL_last cs)]

/-! ## Claim theorems -/

/-- Claim C1, counterexample: on the input `"123"`, whose normalized form is
    empty, the resolver returns `none` (the JS `null`), which is neither a
    directory record nor a placeholder identity — so `resolve` does not yield
    a record-or-placeholder for *every* input string. -/
theorem resolver_counterexample :
    findFaculty "123" [] ⟨[], [], []⟩ = none := by decide

/-- Claim C1 (amended): `resolve` never errors, and for every input whose
    normalized form is non-empty it yields either a record of the directory
    or a synthesized placeholder identity; an input that is empty or whose
    normalized form is empty yields no identity (`null`) instead. -/
theorem resolver_total (raw : String) (fac : List FacultyRecord) (meta : Metadata)
    (hraw : raw ≠ "") (hlow : normalizeL raw.data ≠ []) :
    ∃ r, findFaculty raw fac meta = some r ∧ (r ∈ fac ∨ r.isPlaceholder = true) := by
  rcases hE : exactPass (normalizeL raw.data) fac with _ | m
  · rcases hT : tokenPass (normalizeL raw.data) fac with _ | m
    · rcases hS : substringPass (normalizeL raw.data) fac with _ | m
      · refine ⟨placeholderFor raw (normalizeL raw.data) meta, ?_, Or.inr rfl⟩
        simp [findFaculty, hraw, hlow, hE, hT, hS]
      · refine ⟨m, ?_, Or.inl (substringPass_mem hS)⟩
        simp [findFaculty, hraw, hlow, hE, hT, hS]
    · refine ⟨m, ?_, Or.inl (List.mem_of_find?_eq_some hT)⟩
      simp [findFaculty, hraw, hlow, hE, hT]
  · refine ⟨m, ?_, Or.inl (List.mem_of_find?_eq_some hE)⟩
    simp [findFaculty, hraw, hlow, hE]

/-- Claim C1 witness: a non-degenerate query against an empty directory
    resolves to a placeholder. -/
theorem resolver_total_witness :
    ("Hafsa" : String) ≠ "" ∧ normalizeL "Hafsa".data ≠ [] ∧
      ∃ r, findFaculty "Hafsa" [] ⟨[], [], []⟩ = some r ∧
        (r ∈ ([] : List FacultyRecord) ∨ r.isPlaceholder = true) :=
  ⟨by decide, by decide, resolver_total "Hafsa" [] ⟨[], [], []⟩ (by decide) (by decide)⟩

/-- Claim C2, counterexample: normalization is not idempotent.  On
    `"dr dr smith"` one application strips only the first honorific token,
    yielding `"dr smith"`, and a second application strips again, yielding
    `"smith"`. -/
theorem normalize_not_idempotent :
    normalizeS (normalizeS "dr dr smith") ≠ normalizeS "dr dr smith" := by decide

/-- Claim C2 (amended): normalization is idempotent on exactly those inputs
    whose normalized form is left unchanged by the honorific-stripping step;
    on an input whose normalized form itself begins with a strippable
    honorific token (such as `"dr dr smith"`), a second application strips
    that token too. -/
theorem normalize_idem_of_honorific_fixed (s : String)
    (h : stripHonorific (normalizeS s).data = (normalizeS s).data) :
    normalizeS (normalizeS s) = normalizeS s :=
  congrArg String.mk (normalizeL_idem_of_strip s.data h)

/-- Claim C2 witness: `"Dr. Ayesha Khan5"` normalizes to `"ayesha khan"`,
    which the honorific strip leaves unchanged, so a second normalization is
    the identity on it. -/
theorem normalize_idem_witness :
    stripHonorific (normalizeS "Dr. Ayesha Khan5").data =
      (normalizeS "Dr. Ayesha Khan5").data ∧
    normalizeS (normalizeS "Dr. Ayesha Khan5") = normalizeS "Dr. Ayesha Khan5" :=
  ⟨by decide, normalize_idem_of_honorific_fixed "Dr. Ayesha Khan5" (by decide)⟩

/-- Claim C3: with no exact normalized-name match anywhere in the directory,
    if the records at positions `i < j` both satisfy the token-pass
    acceptance rule, the resolver's result is the *first* accepting record —
    it sits at some position `k ≤ i`, so the later candidate `j` is never
    preferred for a better score; and when no record before `i` is accepted,
    the result is exactly the record at `i`. -/
theorem resolver_first_match (raw : String) (fac : List FacultyRecord)
    (meta : Metadata) (i j : Nat) (hi : i < fac.length) (hj : j < fac.length)
    (hij : i < j) (hraw : raw ≠ "") (hlow : normalizeL raw.data ≠ [])
    (hnoex : ∀ f ∈ fac, normalizeL f.name.data ≠ normalizeL raw.data)
    (hai : tokenAccept (normalizeL raw.data) (fac.get ⟨i, hi⟩) = true)
    (haj : tokenAccept (normalizeL raw.data) (fac.get ⟨j, hj⟩) = true) :
    (∃ k, ∃ hk : k < fac.length, k ≤ i ∧
        findFaculty raw fac meta = some (fac.get ⟨k, hk⟩) ∧
        tokenAccept (normalizeL raw.data) (fac.get ⟨k, hk⟩) = true) ∧
    ((∀ k (hk : k < fac.length), k < i →
        tokenAccept (normalizeL raw.data) (fac.get ⟨k, hk⟩) = false) →
      findFaculty raw fac meta = some (fac.get ⟨i, hi⟩)) := by
  have hE : exactPass (normalizeL raw.data) fac = none := by
    unfold exactPass
    rw [List.find?_eq_none]
    intro f hf
    simp only [beq_iff_eq]
    exact hnoex f hf
  constructor
  · obtain ⟨k, hk, hki, hfind, hpk⟩ :=
      find?_first (tokenAccept (normalizeL raw.data)) fac i hi hai
    refine ⟨k, hk, hki, ?_, hpk⟩
    simp [findFaculty, hraw, hlow, hE, tokenPass, hfind]
  · intro hbefore
    obtain ⟨k, hk, hki, hfind, hpk⟩ :=
      find?_first (tokenAccept (normalizeL raw.data)) fac i hi hai
    have hkeq : k = i := by
      rcases Nat.lt_or_ge k i with hlt | hge
      · rw [hbefore k hk hlt] at hpk; cases hpk
      · omega
    subst hkeq
    simp [findFaculty, hraw, hlow, hE, tokenPass, hfind]

def facW : List FacultyRecord :=
  [⟨"Ali Raza Khan", "", "", "", "", "", false⟩,
   ⟨"Ali Raza Khan Tariq", "", "", "", "", "", false⟩]

/-- Claim C3 witness: both directory records are accepted by the token pass
    for the query, neither is an exact match, and the resolver returns the
    first one. -/
theorem resolver_first_match_witness :
    tokenAccept (normalizeL "ali raza khan malik".data) (facW.get ⟨0, by decide⟩) = true ∧
    tokenAccept (normalizeL "ali raza khan malik".data) (facW.get ⟨1, by decide⟩) = true ∧
    findFaculty "ali raza khan malik" facW ⟨[], [], []⟩ = some (facW.get ⟨0, by decide⟩) :=
  ⟨by decide, by decide,
    (resolver_first_match "ali raza khan malik" facW ⟨[], [], []⟩ 0 1
        (by decide) (by decide) (by decide) (by decide) (by decide)
        (by decide) (by decide) (by decide)).2
      (fun k hk hk0 => absurd hk0 (Nat.not_lt_zero k))⟩

def recKhanTariq : FacultyRecord := ⟨"Ali Raza Tariq", "", "", "", "", "", false⟩

def recAliRazaKhan : FacultyRecord := ⟨"Ali Raza Khan", "", "", "", "", "", false⟩

/-- Claim C4: with exactly 2 of 3 query tokens matched the
    at-least-2-and-fraction-at-least-0.7 rule rejects (2/3 < 0.7), and with
    exactly 3 of 4 matched (not all 4) it accepts (3/4 ≥ 0.7) — stated both
    on the bare rule and through `tokenAccept` on concrete records realizing
    those counts. -/
theorem threshold_boundary :
    acceptRule 2 3 = false ∧ acceptRule 3 4 = true ∧
    matchedTokens (normalizeL "ali raza khan".data) recKhanTariq = 2 ∧
    (splitTokens (normalizeL "ali raza khan".data)).length = 3 ∧
    tokenAccept (normalizeL "ali raza khan".data) recKhanTariq = false ∧
    matchedTokens (normalizeL "ali raza khan malik".data) recAliRazaKhan = 3 ∧
    (splitTokens (normalizeL "ali raza khan malik".data)).length = 4 ∧
    tokenAccept (normalizeL "ali raza khan malik".data) recAliRazaKhan = true := by
  decide

/-- The backoff-wait list of a loader call never exceeds the retry budget. -/
theorem fetchWithRetry_waits_le {α : Type} (attempt : Nat → Except String α) :
    ∀ (r k : Nat) (b : ℚ), (fetchWithRetry attempt k r b).2.length ≤ r := by
  intro r
  induction r with
  | zero =>
    intro k b
    unfold fetchWithRetry
    cases attempt k <;> simp
  | succ n ih =>
    intro k b
    unfold fetchWithRetry
    cases attempt k with
    | ok p => simp
    | error e =>
      simpa using Nat.succ_le_succ (ih (k + 1) (b * (3 / 2)))

/-- Claim C5: with the call-site arguments (`retries = 3`,
    `backoff = 1000`), a call that fails twice then succeeds waits 1000 then
    1500 and returns the parsed payload; a call whose four attempts all fail
    waits 1000, 1500, 2250 and propagates the *last* failure; and no call
    ever makes more than 4 attempts (the attempt count is the wait count plus
    one). -/
theorem retry_discipline {α : Type} (attempt : Nat → Except String α) :
    (∀ (p : α) (e0 e1 : String),
      attempt 0 = .error e0 → attempt 1 = .error e1 → attempt 2 = .ok p →
        fetchWithRetry attempt 0 3 1000 = (.ok p, [1000, 1500])) ∧
    (∀ e0 e1 e2 e3,
      attempt 0 = .error e0 → attempt 1 = .error e1 →
      attempt 2 = .error e2 → attempt 3 = .error e3 →
        fetchWithRetry attempt 0 3 1000 = (.error e3, [1000, 1500, 2250])) ∧
    (fetchWithRetry attempt 0 3 1000).2.length + 1 ≤ 4 := by
  have e1 : (1000 : ℚ) * (3 / 2) = 1500 := by norm_num
  have e2 : (1500 : ℚ) * (3 / 2) = 2250 := by norm_num
  refine ⟨?_, ?_, ?_⟩
  · intro p e0' e1' h0 h1 h2
    unfold fetchWithRetry
    rw [h0]
    simp only [e1]
    unfold fetchWithRetry
    rw [show (0 + 1 : Nat) = 1 from rfl, h1]
    simp only [e2]
    unfold fetchWithRetry
    rw [show (1 + 1 : Nat) = 2 from rfl, h2]
  · intro e0' e1' e2' e3' h0 h1 h2 h3
    unfold fetchWithRetry
    rw [h0]
    simp only [e1]
    unfold fetchWithRetry
    rw [show (0 + 1 : Nat) = 1 from rfl, h1]
    simp only [e2]
    unfold fetchWithRetry
    rw [show (1 + 1 : Nat) = 2 from rfl, h2]
    unfold fetchWithRetry
    rw [show (2 + 1 : Nat) = 3 from rfl, h3]
  · have := fetchWithRetry_waits_le attempt 3 0 1000
    omega

/-- A bootstrap call that fails on the first two attempts and succeeds on the
    third. -/
def attemptW : Nat → Except String String :=
  fun k => if k < 2 then .error "Status 500" else .ok "payload"

/-- Claim C5 witness: the fails-twice-then-succeeds trace at the call-site
    arguments. -/
theorem retry_discipline_witness :
    fetchWithRetry attemptW 0 3 1000 = (.ok "payload", [1000, 1500]) :=
  (retry_discipline attemptW).1 "payload" "Status 500" "Status 500" rfl rfl rfl

/-- Claim C6: when the persisted slot holds (truthy) text the parser rejects,
    the cache load clears the slot, publishes no schedule, touches neither
    the roll number nor the user-visible error, and a further load leaves the
    slot cleared. -/
theorem cache_selfheal (parseJson : String → Option ScheduleSnapshot)
    (st : ClientState) (text : String) (hslot : st.slot = some text)
    (hne : text ≠ "") (hfail : parseJson text = none) :
    (cacheLoad parseJson st).slot = none ∧
    (cacheLoad parseJson st).schedule = st.schedule ∧
    (cacheLoad parseJson st).rollNumber = st.rollNumber ∧
    (cacheLoad parseJson st).errorMsg = st.errorMsg ∧
    cacheLoad parseJson (cacheLoad parseJson st) = cacheLoad parseJson st := by
  have hload : cacheLoad parseJson st = { st with slot := none } := by
    simp [cacheLoad, hslot, hne, hfail]
  rw [hload]
  refine ⟨rfl, rfl, rfl, rfl, ?_⟩
  simp [cacheLoad]

/-- Claim C6 witness: the corrupted slot text `"\x7bbad"` under a parser that
    rejects it. -/
theorem cache_selfheal_witness :
    (⟨some "\x7bbad", none, "", ""⟩ : ClientState).slot = some "\x7bbad" ∧
    ("\x7bbad" : String) ≠ "" ∧
    (cacheLoad (fun _ => none) ⟨some "\x7bbad", none, "", ""⟩).slot = none ∧
    cacheLoad (fun _ => none) (cacheLoad (fun _ => none) ⟨some "\x7bbad", none, "", ""⟩) =
      cacheLoad (fun _ => none) (⟨some "\x7bbad", none, "", ""⟩ : ClientState) := by
    refine ⟨rfl, by decide, ?_, ?_⟩
    · exact (cache_selfheal (fun _ => none) ⟨some "\x7bbad", none, "", ""⟩ "\x7bbad"
        rfl (by decide) rfl).1
    · exact (cache_selfheal (fun _ => none) ⟨some "\x7bbad", none, "", ""⟩ "\x7bbad"
        rfl (by decide) rfl).2.2.2.2

/-- Claim C7: in a session whose authorization-status check reports
    `authenticated = false` with an authorization URL present, a blocked
    window open terminates the session in `popup_blocked`, with the initial
    status request and the window open as its only events — no further
    network call. -/
theorem sync_popup_blocked (sched : ScheduleSnapshot) (w : SyncWorld)
    (st : Nat) (a : AuthData) (h1 : w.auth1 = .resp st (.ok a))
    (hok : statusOk st = true) (herr : a.error = "")
    (hauth : a.authenticated = false) (hurl : a.url ≠ "")
    (hpop : w.openOk = false) :
    handleSync (some sched) w = .finished "popup_blocked" [.callAuth, .openWin] := by
  simp [handleSync, h1, hok, herr, hauth, hurl, hpop]

/-- Claim C7 witness. -/
theorem sync_popup_blocked_witness :
    handleSync (some ⟨none, [], [], ""⟩)
        ⟨.resp 200 (.ok ⟨false, "https://auth", ""⟩), false, false,
          .resp 200 (.ok ⟨false, "", ""⟩), .resp 200 (.ok ⟨""⟩)⟩ =
      .finished "popup_blocked" [.callAuth, .openWin] :=
  sync_popup_blocked ⟨none, [], [], ""⟩ _ 200 ⟨false, "https://auth", ""⟩
    rfl (by decide) rfl rfl (by decide) rfl

/-- Claim C8: once the authorization window is observed closed during
    polling, the timer (period 1000 ms) is stopped and exactly one follow-up
    authorization-status request is issued: a body reporting
    `authenticated = true` leads to the sync submission of the current
    schedule, any other parsed body terminates the session in
    `auth_failed`. -/
theorem sync_poll_close (sched : ScheduleSnapshot) (w : SyncWorld)
    (st st2 : Nat) (a a2 : AuthData) (h1 : w.auth1 = .resp st (.ok a))
    (hok : statusOk st = true) (herr : a.error = "")
    (hauth : a.authenticated = false) (hurl : a.url ≠ "")
    (hpop : w.openOk = true) (hclose : w.windowCloses = true)
    (h2 : w.auth2 = .resp st2 (.ok a2)) :
    pollIntervalMs = 1000 ∧
    (a2.authenticated = true →
      handleSync (some sched) w = .finished (performSyncStatus w.syncRes)
        [.callAuth, .openWin, .callAuth, .callSync sched]) ∧
    (a2.authenticated = false →
      handleSync (some sched) w = .finished "auth_failed"
        [.callAuth, .openWin, .callAuth]) := by
  refine ⟨rfl, ?_, ?_⟩
  · intro hy
    simp [handleSync, h1, hok, herr, hauth, hurl, hpop, hclose, h2, hy]
  · intro hn
    simp [handleSync, h1, hok, herr, hauth, hurl, hpop, hclose, h2, hn]

/-- Claim C8 witness: the window closes while still unauthenticated and the
    session ends in `auth_failed` after exactly one follow-up check. -/
theorem sync_poll_close_witness :
    handleSync (some ⟨none, [], [], ""⟩)
        ⟨.resp 200 (.ok ⟨false, "https://auth", ""⟩), true, true,
          .resp 200 (.ok ⟨false, "", ""⟩), .resp 200 (.ok ⟨""⟩)⟩ =
      .finished "auth_failed" [.callAuth, .openWin, .callAuth] :=
  (sync_poll_close ⟨none, [], [], ""⟩ _ 200 200 ⟨false, "https://auth", ""⟩
      ⟨false, "", ""⟩ rfl (by decide) rfl rfl (by decide) rfl rfl rfl).2.2 rfl

/-- Claim C9: submitting the snapshot to `/sync` yields `auth_needed` on a
    401 response (checked before the body is read), `success` on a 2xx
    response with a parsed body, and the server-provided detail (the
    `Failed(backend:...)` outcome) on any other non-success status with a
    parsed body; and an authenticated session submits the current snapshot
    and finishes with exactly that outcome. -/
theorem sync_submit_outcomes (sched : ScheduleSnapshot) (w : SyncWorld)
    (st stx : Nat) (a : AuthData) (b : SyncBody) (body : Except String SyncBody) :
    performSyncStatus (.resp 401 body) = "auth_needed" ∧
    (statusOk stx = true → performSyncStatus (.resp stx (.ok b)) = "success") ∧
    (statusOk stx = false → stx ≠ 401 →
      performSyncStatus (.resp stx (.ok b)) = "error:" ++ b.detail) ∧
    (w.auth1 = .resp st (.ok a) → statusOk st = true → a.error = "" →
      a.authenticated = true →
      handleSync (some sched) w =
        .finished (performSyncStatus w.syncRes) [.callAuth, .callSync sched]) := by
  refine ⟨rfl, ?_, ?_, ?_⟩
  · intro hok
    have hne : stx ≠ 401 := by
      have := of_decide_eq_true hok
      omega
    simp [performSyncStatus, hne, hok]
  · intro hnok hne
    simp [performSyncStatus, hne, hnok]
  · intro h1 hok herr hauth
    simp [handleSync, h1, hok, herr, hauth]

/-- Claim C9 witness: a 500 response with body detail surfaces the server
    detail. -/
theorem sync_submit_outcomes_witness :
    performSyncStatus (.resp 500 (.ok ⟨"boom"⟩)) = "error:boom" ∧
    performSyncStatus (.resp 401 (.ok ⟨"boom"⟩)) = "auth_needed" ∧
    performSyncStatus (.resp 200 (.ok ⟨""⟩)) = "success" := by
  refine ⟨?_, ?_, ?_⟩
  · exact (sync_submit_outcomes ⟨none, [], [], ""⟩
      ⟨.resp 200 (.ok ⟨true, "", ""⟩), true, true, .resp 200 (.ok ⟨true, "", ""⟩),
        .resp 500 (.ok ⟨"boom"⟩)⟩ 200 500 ⟨true, "", ""⟩ ⟨"boom"⟩
      (.ok ⟨"boom"⟩)).2.2.1 (by decide) (by decide)
  · exact (sync_submit_outcomes ⟨none, [], [], ""⟩
      ⟨.resp 200 (.ok ⟨true, "", ""⟩), true, true, .resp 200 (.ok ⟨true, "", ""⟩),
        .resp 500 (.ok ⟨"boom"⟩)⟩ 200 500 ⟨true, "", ""⟩ ⟨"boom"⟩
      (.ok ⟨"boom"⟩)).1
  · exact (sync_submit_outcomes ⟨none, [], [], ""⟩
      ⟨.resp 200 (.ok ⟨true, "", ""⟩), true, true, .resp 200 (.ok ⟨true, "", ""⟩),
        .resp 500 (.ok ⟨"boom"⟩)⟩ 200 200 ⟨true, "", ""⟩ ⟨""⟩
      (.ok ⟨"boom"⟩)).2.1 (by decide)

/-- Claim C10 (implicit branch): when the authorization-status check succeeds
    with `authenticated = false` and no authorization URL, the session opens
    no window and fails nowhere in the authorization stage — it proceeds
    directly to the sync submission of the current schedule. -/
theorem sync_direct_no_url (sched : ScheduleSnapshot) (w : SyncWorld)
    (st : Nat) (a : AuthData) (h1 : w.auth1 = .resp st (.ok a))
    (hok : statusOk st = true) (herr : a.error = "")
    (hauth : a.authenticated = false) (hurl : a.url = "") :
    handleSync (some sched) w =
      .finished (performSyncStatus w.syncRes) [.callAuth, .callSync sched] := by
  simp [handleSync, h1, hok, herr, hauth, hurl]

/-- Claim C10 witness. -/
theorem sync_direct_no_url_witness :
    handleSync (some ⟨none, [], [], ""⟩)
        ⟨.resp 200 (.ok ⟨false, "", ""⟩), true, true,
          .resp 200 (.ok ⟨false, "", ""⟩), .resp 200 (.ok ⟨""⟩)⟩ =
      .finished "success" [.callAuth, .callSync ⟨none, [], [], ""⟩] :=
  sync_direct_no_url ⟨none, [], [], ""⟩ _ 200 ⟨false, "", ""⟩
    rfl (by decide) rfl rfl rfl

end Timetable
